import Mathlib

/-!
Verification of the Enigma machine core (rotors, plugboard, reflector,
stepping rule, whole-message processing) as implemented in the repository.
The JavaScript source is shallowly embedded: strings become `List Char`,
the custom `mod` helper becomes integer arithmetic with truncated remainder,
JavaScript string indexing (which yields `undefined` out of bounds) is
modelled with a sentinel character that does not occur in the alphabet,
and the fallible constructor (member access on `undefined`) returns `Option`.
-/

/-- The 26-letter uppercase alphabet, `const alphabet = 'ABC...Z'`. -/
def alphabet : List Char := "ABCDEFGHIJKLMNOPQRSTUVWXYZ".toList

/-- `function mod(n, m) { return ((n % m) + m) % m; }` — JavaScript `%` is
truncated remainder, hence `Int.tmod`. -/
def jsmod (n m : Int) : Int := ((n.tmod m) + m).tmod m

/-- Sentinel standing for JavaScript `undefined` as produced by an
out-of-bounds string index; it is not a member of the alphabet. -/
def undefChar : Char := Char.ofNat 0

/-- JavaScript string indexing `s[i]`: the character at `i`, or `undefined`
(the sentinel) when `i` is out of bounds. -/
def charAt (s : List Char) (i : Int) : Char :=
  if 0 ≤ i then s.getD i.toNat undefChar else undefChar

/-- JavaScript `s.indexOf(c)`: index of the first occurrence of `c` in `s`,
or `-1` when `c` does not occur. -/
def jsIndexOf (s : List Char) (c : Char) : Int :=
  if c ∈ s then (s.indexOf c : Int) else -1

/-- Static rotor definition: an entry of the `ROTORS` catalog. -/
structure RotorSpec where
  wiring : List Char
  notch : Char
deriving DecidableEq

/-- The fixed rotor catalog (`ROTORS`): historical rotors I, II, III. -/
def ROTORS : List RotorSpec :=
  [⟨"EKMFLGDQVZNTOWYHXUSPAIBRCJ".toList, 'Q'⟩,
   ⟨"AJDKSIRUXBLHWTMCQGZNPYFVOE".toList, 'E'⟩,
   ⟨"BDFHJLCPRTXVZNYEIWGAKMUSQO".toList, 'V'⟩]

/-- `const REFLECTOR = 'YRUHQSLDPXNGOKMIEBFZCWVJAT'`. -/
def REFLECTOR : List Char := "YRUHQSLDPXNGOKMIEBFZCWVJAT".toList

/-- `plugboardSwap(c, pairs)`: scan the pair list in order, returning the
partner of `c` at the first pair containing it, else `c` unchanged. -/
def plugboardSwap (c : Char) (pairs : List (Char × Char)) : Char :=
  match pairs with
  | [] => c
  | (a, b) :: rest =>
    if c = a then b else if c = b then a else plugboardSwap c rest

/-- A rotor: fixed wiring and notch, session-fixed ring setting, mutable
rotational position. -/
structure Rotor where
  wiring : List Char
  notch : Char
  ringSetting : Int
  position : Int
deriving DecidableEq

namespace Rotor

/-- `step()`: `position = mod(position + 1, 26)`. -/
def step (r : Rotor) : Rotor := { r with position := jsmod (r.position + 1) 26 }

/-- `atNotch()`: `alphabet[position] === notch`. -/
def atNotch (r : Rotor) : Bool := charAt alphabet r.position = r.notch

/-- `forward(c)`: `wiring[mod(alphabet.indexOf(c) + position - ringSetting, 26)]`. -/
def forward (r : Rotor) (c : Char) : Char :=
  charAt r.wiring (jsmod (jsIndexOf alphabet c + r.position - r.ringSetting) 26)

/-- `backward(c)`: `alphabet[mod(wiring.indexOf(c) - position + ringSetting, 26)]`. -/
def backward (r : Rotor) (c : Char) : Char :=
  charAt alphabet (jsmod (jsIndexOf r.wiring c - r.position + r.ringSetting) 26)

end Rotor

/-- The machine: an ordered rotor list plus the plugboard pairing. -/
structure Enigma where
  rotors : List Rotor
  plugboardPairs : List (Char × Char)
deriving DecidableEq

/-- Catalog lookup `ROTORS[id]`: `none` models the `undefined` whose member
access makes the constructor throw. -/
def lookupSpec (id : Int) : Option RotorSpec :=
  if h : 0 ≤ id ∧ id.toNat < ROTORS.length then some (ROTORS.get ⟨id.toNat, h.2⟩)
  else none

/-- The index-threaded rotor build of the constructor,
`rotorIDs.map((id, i) => new Rotor(ROTORS[id].wiring, ROTORS[id].notch,
ringSettings[i], rotorPositions[i]))`: a missing list entry is `undefined`, so
the `Rotor` constructor defaults of `0` apply, hence `getD 0`; an identifier
outside the catalog throws (here: `none`). -/
def buildRotors (rotorPositions ringSettings : List Int) :
    List Int → Nat → Option (List Rotor)
  | [], _ => some []
  | id :: rest, i =>
    match lookupSpec id with
    | none => none
    | some spec =>
      match buildRotors rotorPositions ringSettings rest (i + 1) with
      | none => none
      | some rs =>
        some (Rotor.mk spec.wiring spec.notch (ringSettings.getD i 0)
          (rotorPositions.getD i 0) :: rs)

/-- The `Enigma` constructor. -/
def mkEnigma (rotorIDs : List Int) (rotorPositions ringSettings : List Int)
    (plugboardPairs : List (Char × Char)) : Option Enigma :=
  (buildRotors rotorPositions ringSettings rotorIDs 0).map
    (fun rs => Enigma.mk rs plugboardPairs)

/-- `stepRotors()`: notch tests on the pre-step positions, then the
double-stepping rule; accessing `rotors[0..2]` needs at least three rotors
(fewer would throw on `undefined`, modelled by `none`). -/
def stepRotors (e : Enigma) : Option Enigma :=
  match e.rotors with
  | r0 :: r1 :: r2 :: rest =>
    let middleAtNotch := r1.atNotch
    let rightAtNotch := r2.atNotch
    let r0' := if middleAtNotch then r0.step else r0
    let r1' := if middleAtNotch then r1.step else r1
    let r1'' := if rightAtNotch then r1'.step else r1'
    some { e with rotors := r0' :: r1'' :: r2.step :: rest }
  | _ => none

/-- `encryptChar(c)`: pass-through for non-alphabet characters; otherwise step
the rotors, then plugboard → forward pass (rightmost rotor first) → reflector
→ backward pass (leftmost rotor first) → plugboard.  Returns the output
character together with the mutated machine. -/
def encryptChar (e : Enigma) (c : Char) : Option (Char × Enigma) :=
  if c ∈ alphabet then
    match stepRotors e with
    | none => none
    | some e2 =>
      let c1 := plugboardSwap c e2.plugboardPairs
      let c2 := e2.rotors.foldr (fun r ch => r.forward ch) c1
      let c3 := charAt REFLECTOR (jsIndexOf alphabet c2)
      let c4 := e2.rotors.foldl (fun ch r => r.backward ch) c3
      some (plugboardSwap c4 e2.plugboardPairs, e2)
  else some (c, e)

/-- The character-by-character fold underlying `process` (after uppercasing). -/
def processGo (e : Enigma) : List Char → Option (List Char × Enigma)
  | [] => some ([], e)
  | c :: cs =>
    match encryptChar e c with
    | none => none
    | some (d, e2) =>
      match processGo e2 cs with
      | none => none
      | some (ds, e3) => some (d :: ds, e3)

/-- `process(text)`: uppercase the whole input, then map `encryptChar` over it,
threading the rotor state. -/
def process (e : Enigma) (text : List Char) : Option (List Char × Enigma) :=
  processGo e (text.map Char.toUpper)


/-! ### Validity predicates -/

/-- A wiring string that is a permutation of the 26-letter alphabet. -/
def GoodWiring (w : List Char) : Prop :=
  w.length = 26 ∧ w.Nodup ∧ (∀ c ∈ w, c ∈ alphabet) ∧ ∀ c ∈ alphabet, c ∈ w

instance : DecidablePred GoodWiring := fun w => by
  unfold GoodWiring
  infer_instance

/-- Each letter occurs in at most one pair: distinct pairs share no letter. -/
def PairsDisjoint (pairs : List (Char × Char)) : Prop :=
  pairs.Pairwise (fun p q => p.1 ≠ q.1 ∧ p.1 ≠ q.2 ∧ p.2 ≠ q.1 ∧ p.2 ≠ q.2)

instance : DecidablePred PairsDisjoint := fun pairs => by
  unfold PairsDisjoint
  infer_instance

/-- Every state reachable from a validly configured machine satisfies this:
exactly three rotors, each wiring a permutation of the alphabet, disjoint
alphabetic plugboard pairs. -/
def GoodMachine (e : Enigma) : Prop :=
  e.rotors.length = 3 ∧ (∀ r ∈ e.rotors, GoodWiring r.wiring) ∧
    PairsDisjoint e.plugboardPairs ∧
    ∀ q ∈ e.plugboardPairs, q.1 ∈ alphabet ∧ q.2 ∈ alphabet

instance : DecidablePred GoodMachine := fun e => by
  unfold GoodMachine
  infer_instance

/-- A valid configuration in the sense of the specification: three catalog
identifiers, three positions and three ring settings in [0,25], disjoint
alphabetic plugboard pairs. -/
def ValidConfig (ids ps rs : List Int) (pairs : List (Char × Char)) : Prop :=
  ids.length = 3 ∧ (∀ id ∈ ids, 0 ≤ id ∧ id < 3) ∧
    ps.length = 3 ∧ (∀ p ∈ ps, 0 ≤ p ∧ p ≤ 25) ∧
    rs.length = 3 ∧ (∀ g ∈ rs, 0 ≤ g ∧ g ≤ 25) ∧
    PairsDisjoint pairs ∧ ∀ q ∈ pairs, q.1 ∈ alphabet ∧ q.2 ∈ alphabet

instance : ∀ ids ps rs pairs, Decidable (ValidConfig ids ps rs pairs) :=
  fun ids ps rs pairs => by
    unfold ValidConfig
    infer_instance

/-! ### Checked variants of every index lookup on the signal path -/

/-- Checked string indexing: defined only when the index is inside the string. -/
def charAtChecked (s : List Char) (i : Int) : Option Char :=
  if h : 0 ≤ i ∧ i.toNat < s.length then some (s.get ⟨i.toNat, h.2⟩) else none

/-- Checked index search: defined only when the character occurs in the string. -/
def jsIndexOfChecked (s : List Char) (c : Char) : Option Int :=
  if c ∈ s then some (s.indexOf c) else none

/-- `Rotor.forward` with every lookup checked. -/
def forwardChecked (r : Rotor) (c : Char) : Option Char :=
  (jsIndexOfChecked alphabet c).bind fun i =>
    charAtChecked r.wiring (jsmod (i + r.position - r.ringSetting) 26)

/-- `Rotor.backward` with every lookup checked. -/
def backwardChecked (r : Rotor) (c : Char) : Option Char :=
  (jsIndexOfChecked r.wiring c).bind fun i =>
    charAtChecked alphabet (jsmod (i - r.position + r.ringSetting) 26)

/-- The reflector lookup `REFLECTOR[alphabet.indexOf(c)]` with both steps checked. -/
def reflectChecked (c : Char) : Option Char :=
  (jsIndexOfChecked alphabet c).bind fun i => charAtChecked REFLECTOR i

/-- `encryptChar` with every index lookup on the signal path checked. -/
def encryptCharChecked (e : Enigma) (c : Char) : Option (Char × Enigma) :=
  if c ∈ alphabet then
    match stepRotors e with
    | none => none
    | some e2 =>
      (((e2.rotors.foldr (fun r och => och.bind (forwardChecked r))
          (some (plugboardSwap c e2.plugboardPairs))).bind reflectChecked).bind
        (fun c3 => e2.rotors.foldl (fun och r => och.bind (backwardChecked r))
          (some c3))).map
        (fun c4 => (plugboardSwap c4 e2.plugboardPairs, e2))
  else some (c, e)

/-- `processGo` over the checked per-character function. -/
def processGoChecked (e : Enigma) : List Char → Option (List Char × Enigma)
  | [] => some ([], e)
  | c :: cs =>
    match encryptCharChecked e c with
    | none => none
    | some (d, e2) =>
      match processGoChecked e2 cs with
      | none => none
      | some (ds, e3) => some (d :: ds, e3)

/-- `process` over the checked per-character function. -/
def processChecked (e : Enigma) (text : List Char) : Option (List Char × Enigma) :=
  processGoChecked e (text.map Char.toUpper)

/-- The lowercase letters, which are not members of `alphabet`. -/
def lowercaseAlphabet : List Char := "abcdefghijklmnopqrstuvwxyz".toList

/-! ### Concrete rotors and machines used in witnesses -/

/-- Rotor I at ring setting 0, position 0. -/
def rotorI0 : Rotor := ⟨"EKMFLGDQVZNTOWYHXUSPAIBRCJ".toList, 'Q', 0, 0⟩

/-- Rotor II at ring setting 0, position 0. -/
def rotorII0 : Rotor := ⟨"AJDKSIRUXBLHWTMCQGZNPYFVOE".toList, 'E', 0, 0⟩

/-- Rotor II at ring setting 0, position 4, which is its notch ('E'). -/
def rotorII4 : Rotor := ⟨"AJDKSIRUXBLHWTMCQGZNPYFVOE".toList, 'E', 0, 4⟩

/-- Rotor III at ring setting 0, position 0. -/
def rotorIII0 : Rotor := ⟨"BDFHJLCPRTXVZNYEIWGAKMUSQO".toList, 'V', 0, 0⟩

/-- Rotor III at ring setting 0, position 1. -/
def rotorIII1 : Rotor := ⟨"BDFHJLCPRTXVZNYEIWGAKMUSQO".toList, 'V', 0, 1⟩

/-- The machine built from rotors I, II, III with all positions and ring
settings 0 and an empty plugboard. -/
def sampleMachine : Enigma := ⟨[rotorI0, rotorII0, rotorIII0], []⟩

/-- `sampleMachine` after one keystroke: only the right rotor has advanced. -/
def sampleStepped : Enigma := ⟨[rotorI0, rotorII0, rotorIII1], []⟩

/-- A machine whose middle rotor (II, notch 'E') sits at its notch position 4
while the right rotor (III, notch 'V') does not: the double-stepping case. -/
def sampleDouble : Enigma := ⟨[rotorI0, rotorII4, rotorIII0], []⟩

/-! ### Basic sanity checks -/

example : jsmod (-3) 26 = 23 := by decide
example : charAt alphabet 1 = 'B' := by decide
example : jsIndexOf alphabet 'C' = 2 := by decide
example : jsIndexOf alphabet 'c' = -1 := by decide

/-! ### Arithmetic facts about `jsmod` -/

theorem tmod_lower (n m : Int) (hm : 0 < m) : -m < n.tmod m := by
  rcases le_or_lt 0 n with h | h
  · have := Int.tmod_nonneg m h
    linarith
  · have hdef : (-n).tmod m = -(n.tmod m) := by
      rw [Int.tmod_def, Int.tmod_def, Int.neg_tdiv]
      ring
    have := Int.tmod_lt_of_pos (-n) hm
    rw [hdef] at this
    linarith

/-- The JavaScript helper `mod` agrees with mathematical (Euclidean) mod for a
positive modulus. -/
theorem jsmod_eq_emod (n m : Int) (hm : 0 < m) : jsmod n m = n % m := by
  unfold jsmod
  have h1 : -m < n.tmod m := tmod_lower n m hm
  have h3 : 0 ≤ n.tmod m + m := by linarith
  rw [Int.tmod_eq_emod h3 (le_of_lt hm)]
  have h5 : n.tmod m + m = n + m * (1 - n.tdiv m) := by
    rw [Int.tmod_def]
    ring
  rw [h5, Int.add_mul_emod_self_left]

theorem jsmod_nonneg (n : Int) : 0 ≤ jsmod n 26 := by
  rw [jsmod_eq_emod n 26 (by norm_num)]
  exact Int.emod_nonneg n (by norm_num)

theorem jsmod_lt (n : Int) : jsmod n 26 < 26 := by
  rw [jsmod_eq_emod n 26 (by norm_num)]
  exact Int.emod_lt_of_pos n (by norm_num)

theorem jsmod_small {n : Int} (h0 : 0 ≤ n) (h1 : n < 26) : jsmod n 26 = n := by
  rw [jsmod_eq_emod n 26 (by norm_num)]
  omega

theorem jsmod_add_left (x y : Int) : jsmod (jsmod x 26 + y) 26 = jsmod (x + y) 26 := by
  rw [jsmod_eq_emod _ 26 (by norm_num), jsmod_eq_emod _ 26 (by norm_num),
    jsmod_eq_emod _ 26 (by norm_num)]
  omega

/-! ### Lookup facts about `charAt` and `jsIndexOf` -/

theorem charAt_eq_get (s : List Char) (i : Int) (h0 : 0 ≤ i)
    (h1 : i.toNat < s.length) : charAt s i = s.get ⟨i.toNat, h1⟩ := by
  unfold charAt
  rw [if_pos h0]
  simp [List.getD, List.getElem?_eq_getElem h1]

theorem charAt_mem (s : List Char) (i : Int) (h0 : 0 ≤ i)
    (h1 : i.toNat < s.length) : charAt s i ∈ s := by
  rw [charAt_eq_get s i h0 h1]
  exact List.get_mem s i.toNat h1

theorem jsIndexOf_of_mem {s : List Char} {c : Char} (h : c ∈ s) :
    jsIndexOf s c = (s.indexOf c : Int) := by
  unfold jsIndexOf
  rw [if_pos h]

theorem jsIndexOf_nonneg {s : List Char} {c : Char} (h : c ∈ s) :
    0 ≤ jsIndexOf s c := by
  rw [jsIndexOf_of_mem h]
  exact Int.ofNat_nonneg _

theorem jsIndexOf_lt {s : List Char} {c : Char} (h : c ∈ s) :
    jsIndexOf s c < (s.length : Int) := by
  rw [jsIndexOf_of_mem h]
  exact_mod_cast List.indexOf_lt_length.2 h

theorem charAt_jsIndexOf {s : List Char} {c : Char} (h : c ∈ s) :
    charAt s (jsIndexOf s c) = c := by
  have hlt : s.indexOf c < s.length := List.indexOf_lt_length.2 h
  rw [jsIndexOf_of_mem h, charAt_eq_get s _ (Int.ofNat_nonneg _) (by simpa using hlt)]
  simp [List.indexOf_get (l := s) (a := c)]

theorem jsIndexOf_get {s : List Char} (hnd : s.Nodup) (i : Fin s.length) :
    jsIndexOf s (s.get i) = (i : Int) := by
  rw [jsIndexOf_of_mem (List.get_mem s i i.isLt)]
  exact_mod_cast congrArg (Nat.cast : Nat → Int) (List.get_indexOf hnd i)

/-! ### Wirings that permute the alphabet -/


theorem alphabet_length : alphabet.length = 26 := by decide

theorem alphabet_nodup : alphabet.Nodup := by decide

theorem good_rotors : ∀ spec ∈ ROTORS, GoodWiring spec.wiring := by decide

theorem good_reflector : GoodWiring REFLECTOR := by decide

/-! ### Rotor lemmas -/

theorem forward_mem {r : Rotor} (hw : GoodWiring r.wiring) (c : Char) :
    r.forward c ∈ alphabet := by
  apply hw.2.2.1
  unfold Rotor.forward
  apply charAt_mem
  · exact jsmod_nonneg _
  · have h0 := jsmod_nonneg (jsIndexOf alphabet c + r.position - r.ringSetting)
    have h1 := jsmod_lt (jsIndexOf alphabet c + r.position - r.ringSetting)
    rw [hw.1]
    omega

theorem backward_mem (r : Rotor) (c : Char) : r.backward c ∈ alphabet := by
  unfold Rotor.backward
  apply charAt_mem
  · exact jsmod_nonneg _
  · have h0 := jsmod_nonneg (jsIndexOf r.wiring c - r.position + r.ringSetting)
    have h1 := jsmod_lt (jsIndexOf r.wiring c - r.position + r.ringSetting)
    rw [alphabet_length]
    omega

theorem backward_forward {r : Rotor} (hw : GoodWiring r.wiring) {c : Char}
    (hc : c ∈ alphabet) : r.backward (r.forward c) = c := by
  unfold Rotor.forward Rotor.backward
  set x := jsIndexOf alphabet c + r.position - r.ringSetting with hx
  have h0 : 0 ≤ jsmod x 26 := jsmod_nonneg x
  have h1 : jsmod x 26 < 26 := jsmod_lt x
  have hlen : (jsmod x 26).toNat < r.wiring.length := by
    rw [hw.1]
    omega
  rw [charAt_eq_get _ _ h0 hlen,
    jsIndexOf_get hw.2.1 ⟨(jsmod x 26).toNat, hlen⟩]
  have htonat : (((jsmod x 26).toNat : Nat) : Int) = jsmod x 26 :=
    Int.toNat_of_nonneg h0
  have hidx0 : 0 ≤ jsIndexOf alphabet c := jsIndexOf_nonneg hc
  have hidx1 : jsIndexOf alphabet c < 26 := by
    have := jsIndexOf_lt hc
    rw [alphabet_length] at this
    exact_mod_cast this
  have harg : jsmod ((((jsmod x 26).toNat : Nat) : Int) - r.position + r.ringSetting) 26
      = jsIndexOf alphabet c := by
    rw [htonat,
      show jsmod x 26 - r.position + r.ringSetting
        = jsmod x 26 + (r.ringSetting - r.position) by ring,
      jsmod_add_left,
      show x + (r.ringSetting - r.position) = jsIndexOf alphabet c by rw [hx]; ring]
    exact jsmod_small hidx0 hidx1
  rw [harg, charAt_jsIndexOf hc]

theorem forward_backward {r : Rotor} (hw : GoodWiring r.wiring) {c : Char}
    (hc : c ∈ alphabet) : r.forward (r.backward c) = c := by
  unfold Rotor.forward Rotor.backward
  have hcw : c ∈ r.wiring := hw.2.2.2 c hc
  set j := jsIndexOf r.wiring c with hj
  have hj0 : 0 ≤ j := jsIndexOf_nonneg hcw
  have hj1 : j < 26 := by
    have := jsIndexOf_lt hcw
    rw [hw.1] at this
    exact_mod_cast this
  set y := j - r.position + r.ringSetting with hy
  have h0 : 0 ≤ jsmod y 26 := jsmod_nonneg y
  have h1 : jsmod y 26 < 26 := jsmod_lt y
  have hlen : (jsmod y 26).toNat < alphabet.length := by
    rw [alphabet_length]
    omega
  rw [charAt_eq_get _ _ h0 hlen,
    jsIndexOf_get alphabet_nodup ⟨(jsmod y 26).toNat, hlen⟩]
  have htonat : (((jsmod y 26).toNat : Nat) : Int) = jsmod y 26 :=
    Int.toNat_of_nonneg h0
  have harg : jsmod ((((jsmod y 26).toNat : Nat) : Int) + r.position - r.ringSetting) 26 = j := by
    rw [htonat,
      show jsmod y 26 + r.position - r.ringSetting
        = jsmod y 26 + (r.position - r.ringSetting) by ring,
      jsmod_add_left,
      show y + (r.position - r.ringSetting) = j by rw [hy]; ring]
    exact jsmod_small hj0 hj1
  rw [harg, hj, charAt_jsIndexOf hcw]

/-! ### Plugboard lemmas -/


theorem plugboardSwap_cases (c : Char) (pairs : List (Char × Char)) :
    plugboardSwap c pairs = c ∨
      ∃ q ∈ pairs, plugboardSwap c pairs = q.1 ∨ plugboardSwap c pairs = q.2 := by
  induction pairs with
  | nil => exact Or.inl rfl
  | cons p rest ih =>
    obtain ⟨a, b⟩ := p
    by_cases h1 : c = a
    · refine Or.inr ⟨(a, b), List.mem_cons_self _ _, Or.inr ?_⟩
      simp [plugboardSwap, h1]
    · by_cases h2 : c = b
      · refine Or.inr ⟨(a, b), List.mem_cons_self _ _, Or.inl ?_⟩
        simp [plugboardSwap, h1, h2]
      · have hs : plugboardSwap c ((a, b) :: rest) = plugboardSwap c rest := by
          simp [plugboardSwap, h1, h2]
        rw [hs]
        rcases ih with h | ⟨q, hq, h⟩
        · exact Or.inl h
        · exact Or.inr ⟨q, List.mem_cons_of_mem _ hq, h⟩

theorem plugboardSwap_not_mem (c : Char) (pairs : List (Char × Char))
    (h : ∀ q ∈ pairs, c ≠ q.1 ∧ c ≠ q.2) : plugboardSwap c pairs = c := by
  induction pairs with
  | nil => rfl
  | cons p rest ih =>
    obtain ⟨a, b⟩ := p
    have h1 := h (a, b) (List.mem_cons_self _ _)
    have hrest := ih (fun q hq => h q (List.mem_cons_of_mem _ hq))
    simpa [plugboardSwap, h1.1, h1.2] using hrest

theorem plugboardSwap_alpha (pairs : List (Char × Char))
    (hp : ∀ q ∈ pairs, q.1 ∈ alphabet ∧ q.2 ∈ alphabet) (c : Char)
    (hc : c ∈ alphabet) : plugboardSwap c pairs ∈ alphabet := by
  rcases plugboardSwap_cases c pairs with h | ⟨q, hq, h | h⟩
  · rwa [h]
  · rw [h]
    exact (hp q hq).1
  · rw [h]
    exact (hp q hq).2

theorem plugboardSwap_invol (pairs : List (Char × Char)) (hd : PairsDisjoint pairs)
    (c : Char) : plugboardSwap (plugboardSwap c pairs) pairs = c := by
  induction pairs with
  | nil => rfl
  | cons p rest ih =>
    obtain ⟨a, b⟩ := p
    rw [PairsDisjoint, List.pairwise_cons] at hd
    obtain ⟨hhead, htail⟩ := hd
    by_cases h1 : c = a
    · have hs : plugboardSwap c ((a, b) :: rest) = b := by
        simp [plugboardSwap, h1]
      rw [hs]
      by_cases hba : b = a
      · simp [plugboardSwap, hba, h1]
      · simp [plugboardSwap, hba, h1.symm]
    · by_cases h2 : c = b
      · have hs : plugboardSwap c ((a, b) :: rest) = a := by
          simp [plugboardSwap, h1, h2]
        rw [hs]
        simp [plugboardSwap, h2]
      · have hs : plugboardSwap c ((a, b) :: rest) = plugboardSwap c rest := by
          simp [plugboardSwap, h1, h2]
        rw [hs]
        have hda : plugboardSwap c rest ≠ a := by
          rcases plugboardSwap_cases c rest with h | ⟨q, hq, h | h⟩
          · rw [h]
            exact fun hh => h1 hh
          · rw [h]
            exact fun hh => (hhead q hq).1 hh.symm
          · rw [h]
            exact fun hh => (hhead q hq).2.1 hh.symm
        have hdb : plugboardSwap c rest ≠ b := by
          rcases plugboardSwap_cases c rest with h | ⟨q, hq, h | h⟩
          · rw [h]
            exact fun hh => h2 hh
          · rw [h]
            exact fun hh => (hhead q hq).2.2.1 hh.symm
          · rw [h]
            exact fun hh => (hhead q hq).2.2.2 hh.symm
        have hs2 : plugboardSwap (plugboardSwap c rest) ((a, b) :: rest)
            = plugboardSwap (plugboardSwap c rest) rest := by
          simp [plugboardSwap, hda, hdb]
        rw [hs2]
        exact ih htail

theorem plugboardSwap_pair (pairs : List (Char × Char)) (hd : PairsDisjoint pairs)
    {a b : Char} (hab : (a, b) ∈ pairs) :
    plugboardSwap a pairs = b ∧ plugboardSwap b pairs = a := by
  induction pairs with
  | nil => cases hab
  | cons p rest ih =>
    rw [PairsDisjoint, List.pairwise_cons] at hd
    obtain ⟨hhead, htail⟩ := hd
    rcases List.mem_cons.1 hab with heq | hmem
    · rw [← heq]
      constructor
      · simp [plugboardSwap]
      · by_cases hba : b = a
        · simp [plugboardSwap, hba]
        · simp [plugboardSwap, hba]
    · obtain ⟨x, y⟩ := p
      have h4 := hhead (a, b) hmem
      have hr := ih htail hmem
      constructor
      · simpa [plugboardSwap, Ne.symm h4.1, Ne.symm h4.2.2.1] using hr.1
      · simpa [plugboardSwap, Ne.symm h4.2.1, Ne.symm h4.2.2.2] using hr.2

/-! ### Reflector facts -/

theorem reflect_mem : ∀ c ∈ alphabet, charAt REFLECTOR (jsIndexOf alphabet c) ∈ alphabet := by
  decide

theorem reflect_invol :
    ∀ c ∈ alphabet,
      charAt REFLECTOR (jsIndexOf alphabet (charAt REFLECTOR (jsIndexOf alphabet c))) = c := by
  decide

theorem reflect_no_fix : ∀ c ∈ alphabet, charAt REFLECTOR (jsIndexOf alphabet c) ≠ c := by
  decide

/-! ### The machine invariant -/


theorem step_wiring (r : Rotor) : r.step.wiring = r.wiring := rfl

theorem ite_step_wiring (b : Bool) (r : Rotor) :
    (if b then r.step else r).wiring = r.wiring := by
  cases b <;> rfl

theorem stepRotors_three {e : Enigma} {r0 r1 r2 : Rotor} (h : e.rotors = [r0, r1, r2]) :
    stepRotors e = some { e with rotors :=
      [if r1.atNotch then r0.step else r0,
       if r2.atNotch then (if r1.atNotch then r1.step else r1).step
         else (if r1.atNotch then r1.step else r1),
       r2.step] } := by
  simp only [stepRotors, h]

theorem stepRotors_good {e e2 : Enigma} (hg : GoodMachine e)
    (h : stepRotors e = some e2) :
    GoodMachine e2 ∧ e2.plugboardPairs = e.plugboardPairs := by
  obtain ⟨r0, r1, r2, hr⟩ := List.length_eq_three.1 hg.1
  rw [stepRotors_three hr] at h
  have hW := hg.2.1
  rw [hr] at hW
  obtain rfl : e2 = _ := (Option.some_injective _ h).symm
  refine ⟨⟨rfl, ?_, hg.2.2.1, hg.2.2.2⟩, rfl⟩
  intro r hrm
  simp only [List.mem_cons, List.not_mem_nil, or_false] at hrm
  rcases hrm with rfl | rfl | rfl
  · rw [ite_step_wiring]
    exact hW r0 (by simp)
  · rw [ite_step_wiring, ite_step_wiring]
    exact hW r1 (by simp)
  · rw [step_wiring]
    exact hW r2 (by simp)

/-! ### The per-character involution -/

theorem encryptChar_letter {e : Enigma} (hg : GoodMachine e) {c : Char}
    (hc : c ∈ alphabet) :
    ∃ d e2, encryptChar e c = some (d, e2) ∧ encryptChar e d = some (c, e2) ∧
      d ∈ alphabet ∧ d ≠ c ∧ GoodMachine e2 ∧ stepRotors e = some e2 := by
  obtain ⟨r0, r1, r2, hr⟩ := List.length_eq_three.1 hg.1
  obtain ⟨e2, hstep⟩ : ∃ e2, stepRotors e = some e2 := ⟨_, stepRotors_three hr⟩
  obtain ⟨hg2, hpp⟩ := stepRotors_good hg hstep
  obtain ⟨s0, s1, s2, hr2⟩ := List.length_eq_three.1 hg2.1
  have hW := hg2.2.1
  rw [hr2] at hW
  have hW0 : GoodWiring s0.wiring := hW s0 (by simp)
  have hW1 : GoodWiring s1.wiring := hW s1 (by simp)
  have hW2 : GoodWiring s2.wiring := hW s2 (by simp)
  have hdisj : PairsDisjoint e2.plugboardPairs := hg2.2.2.1
  have halpha : ∀ q ∈ e2.plugboardPairs, q.1 ∈ alphabet ∧ q.2 ∈ alphabet := hg2.2.2.2
  set P := e2.plugboardPairs with hP
  set c1 := plugboardSwap c P with hc1
  have hc1m : c1 ∈ alphabet := plugboardSwap_alpha P halpha c hc
  set x2 := s2.forward c1 with hx2
  set x1 := s1.forward x2 with hx1
  set x0 := s0.forward x1 with hx0
  have hx2m : x2 ∈ alphabet := forward_mem hW2 c1
  have hx1m : x1 ∈ alphabet := forward_mem hW1 x2
  have hx0m : x0 ∈ alphabet := forward_mem hW0 x1
  set c3 := charAt REFLECTOR (jsIndexOf alphabet x0) with hc3
  have hc3m : c3 ∈ alphabet := reflect_mem x0 hx0m
  set y0 := s0.backward c3 with hy0
  set y1 := s1.backward y0 with hy1
  set y2 := s2.backward y1 with hy2
  have hy0m : y0 ∈ alphabet := backward_mem s0 c3
  have hy1m : y1 ∈ alphabet := backward_mem s1 y0
  have hy2m : y2 ∈ alphabet := backward_mem s2 y1
  set d := plugboardSwap y2 P with hd
  have hdm : d ∈ alphabet := plugboardSwap_alpha P halpha y2 hy2m
  have henc1 : encryptChar e c = some (d, e2) := by
    simp only [encryptChar, hc, if_true, hstep, hr2, List.foldr_cons, List.foldr_nil,
      List.foldl_cons, List.foldl_nil]
  have e1 : plugboardSwap d P = y2 := by
    rw [hd]
    exact plugboardSwap_invol P hdisj y2
  have e2a : s2.forward y2 = y1 := by
    rw [hy2]
    exact forward_backward hW2 hy1m
  have e3a : s1.forward y1 = y0 := by
    rw [hy1]
    exact forward_backward hW1 hy0m
  have e4 : s0.forward y0 = c3 := by
    rw [hy0]
    exact forward_backward hW0 hc3m
  have e5 : charAt REFLECTOR (jsIndexOf alphabet c3) = x0 := by
    rw [hc3]
    exact reflect_invol x0 hx0m
  have e6 : s0.backward x0 = x1 := by
    rw [hx0]
    exact backward_forward hW0 hx1m
  have e7 : s1.backward x1 = x2 := by
    rw [hx1]
    exact backward_forward hW1 hx2m
  have e8 : s2.backward x2 = c1 := by
    rw [hx2]
    exact backward_forward hW2 hc1m
  have e9 : plugboardSwap c1 P = c := by
    rw [hc1]
    exact plugboardSwap_invol P hdisj c
  have henc2 : encryptChar e d = some (c, e2) := by
    simp only [encryptChar, hdm, if_true, hstep, hr2, List.foldr_cons, List.foldr_nil,
      List.foldl_cons, List.foldl_nil]
    rw [← hP, e1, e2a, e3a, e4, e5, e6, e7, e8, e9]
  have hne : d ≠ c := by
    intro heq
    have hcy : c1 = y2 := by
      have h := e1
      rw [heq] at h
      rw [hc1, ← h]
    have hx2y1 : x2 = y1 := by
      rw [hx2, hcy]
      exact e2a
    have hx1y0 : x1 = y0 := by
      rw [hx1, hx2y1]
      exact e3a
    have hx0c3 : x0 = c3 := by
      rw [hx0, hx1y0]
      exact e4
    exact reflect_no_fix x0 hx0m (by rw [hc3] at hx0c3; exact hx0c3.symm)
  exact ⟨d, e2, henc1, henc2, hdm, hne, hg2, hstep⟩

/-! ### Constructor lemmas -/

theorem lookupSpec_isSome (id : Int) :
    (lookupSpec id).isSome = true ↔ 0 ≤ id ∧ id < 3 := by
  have hlen : ROTORS.length = 3 := rfl
  unfold lookupSpec
  split_ifs with h
  · simp only [Option.isSome_some, true_iff]
    omega
  · simp only [Option.isSome_none, Bool.false_eq_true, false_iff]
    omega

theorem lookupSpec_some {id : Int} (h0 : 0 ≤ id) (h1 : id < 3) :
    ∃ spec, lookupSpec id = some spec ∧ spec ∈ ROTORS := by
  have h2 : id.toNat < ROTORS.length := by
    have : ROTORS.length = 3 := rfl
    omega
  exact ⟨_, dif_pos ⟨h0, h2⟩, List.get_mem _ _ _⟩

theorem buildRotors_isSome (ps rs : List Int) (ids : List Int) (i : Nat) :
    (buildRotors ps rs ids i).isSome = true ↔
      ∀ id ∈ ids, (lookupSpec id).isSome = true := by
  induction ids generalizing i with
  | nil => simp [buildRotors]
  | cons id rest ih =>
    cases hl : lookupSpec id with
    | none =>
      simp [buildRotors, hl]
    | some spec =>
      cases hb : buildRotors ps rs rest (i + 1) with
      | none =>
        have := (ih (i + 1)).not
        rw [hb] at this
        simp only [Option.isSome_none, Bool.false_eq_true, not_false_iff,
          true_iff] at this  -- hmm may fail; fix below if needed
        simp only [buildRotors, hl, hb, Option.isSome_none, Bool.false_eq_true,
          false_iff]
        intro hall
        exact this (fun x hx => hall x (List.mem_cons_of_mem _ hx))
      | some built =>
        have hrest : ∀ x ∈ rest, (lookupSpec x).isSome = true := by
          have := (ih (i + 1)).1
          rw [hb] at this
          exact this rfl
        simp only [buildRotors, hl, hb, Option.isSome_some, true_iff]
        intro x hx
        rcases List.mem_cons.1 hx with rfl | hx2
        · rw [hl]
          rfl
        · exact hrest x hx2

theorem mkEnigma_isSome (ids ps rs : List Int) (pairs : List (Char × Char)) :
    (mkEnigma ids ps rs pairs).isSome = true ↔ ∀ id ∈ ids, 0 ≤ id ∧ id < 3 := by
  unfold mkEnigma
  rw [Option.isSome_map']
  rw [buildRotors_isSome]
  constructor
  · intro h id hid
    exact (lookupSpec_isSome id).1 (h id hid)
  · intro h id hid
    exact (lookupSpec_isSome id).2 (h id hid)


theorem mkEnigma_valid {ids ps rs : List Int} {pairs : List (Char × Char)}
    (h : ValidConfig ids ps rs pairs) :
    ∃ e, mkEnigma ids ps rs pairs = some e ∧ GoodMachine e := by
  obtain ⟨hlen, hb, hpl, hpb, hrl, hrb, hdisj, halpha⟩ := h
  obtain ⟨i0, i1, i2, hids⟩ := List.length_eq_three.1 hlen
  subst hids
  obtain ⟨sp0, hl0, hm0⟩ := lookupSpec_some (hb i0 (by simp)).1 (hb i0 (by simp)).2
  obtain ⟨sp1, hl1, hm1⟩ := lookupSpec_some (hb i1 (by simp)).1 (hb i1 (by simp)).2
  obtain ⟨sp2, hl2, hm2⟩ := lookupSpec_some (hb i2 (by simp)).1 (hb i2 (by simp)).2
  refine ⟨⟨[⟨sp0.wiring, sp0.notch, rs.getD 0 0, ps.getD 0 0⟩,
            ⟨sp1.wiring, sp1.notch, rs.getD 1 0, ps.getD 1 0⟩,
            ⟨sp2.wiring, sp2.notch, rs.getD 2 0, ps.getD 2 0⟩], pairs⟩, ?_, ?_⟩
  · simp [mkEnigma, buildRotors, hl0, hl1, hl2]
  · refine ⟨rfl, ?_, hdisj, halpha⟩
    intro r hr
    simp only [List.mem_cons, List.not_mem_nil, or_false] at hr
    rcases hr with rfl | rfl | rfl
    · exact good_rotors sp0 hm0
    · exact good_rotors sp1 hm1
    · exact good_rotors sp2 hm2

/-! ### Uppercasing -/

theorem toUpper_alphabet : ∀ c ∈ alphabet, c.toUpper = c := by
  decide

theorem map_toUpper_id {M : List Char} (hM : ∀ c ∈ M, c ∈ alphabet) :
    M.map Char.toUpper = M := by
  induction M with
  | nil => rfl
  | cons c cs ih =>
    simp only [List.map_cons]
    rw [toUpper_alphabet c (hM c (List.mem_cons_self _ _)),
      ih (fun x hx => hM x (List.mem_cons_of_mem _ hx))]

/-! ### Whole-message lemmas -/

theorem processGo_letters {e : Enigma} (hg : GoodMachine e) {M : List Char}
    (hM : ∀ c ∈ M, c ∈ alphabet) :
    ∃ ct e3, processGo e M = some (ct, e3) ∧ processGo e ct = some (M, e3) ∧
      (∀ c ∈ ct, c ∈ alphabet) ∧ ct.length = M.length ∧ GoodMachine e3 := by
  induction M generalizing e with
  | nil => exact ⟨[], e, rfl, rfl, by simp, rfl, hg⟩
  | cons c cs ih =>
    have hc := hM c (List.mem_cons_self _ _)
    obtain ⟨d, e2, henc1, henc2, hdm, _, hg2, _⟩ := encryptChar_letter hg hc
    obtain ⟨ct, e3, hp1, hp2, hct, hlen, hg3⟩ :=
      ih hg2 (fun x hx => hM x (List.mem_cons_of_mem _ hx))
    refine ⟨d :: ct, e3, ?_, ?_, ?_, ?_, hg3⟩
    · simp [processGo, henc1, hp1]
    · simp [processGo, henc2, hp2]
    · intro x hx
      rcases List.mem_cons.1 hx with rfl | hx2
      · exact hdm
      · exact hct x hx2
    · simp [hlen]

theorem encryptChar_good {e e2 : Enigma} {c d : Char} (hg : GoodMachine e)
    (h : encryptChar e c = some (d, e2)) : GoodMachine e2 := by
  by_cases hc : c ∈ alphabet
  · rw [encryptChar, if_pos hc] at h
    cases hstep : stepRotors e with
    | none =>
      rw [hstep] at h
      cases h
    | some e' =>
      rw [hstep] at h
      have he : e2 = e' := by
        simp only [Option.some_inj] at h
        exact (congrArg Prod.snd h.symm)
      rw [he]
      exact (stepRotors_good hg hstep).1
  · rw [encryptChar, if_neg hc] at h
    simp only [Option.some_inj] at h
    have he : e2 = e := congrArg Prod.snd h.symm
    rw [he]
    exact hg

theorem processGo_good {ts : List Char} :
    ∀ {e : Enigma}, GoodMachine e → ∀ {out : List Char} {e3 : Enigma},
      processGo e ts = some (out, e3) → GoodMachine e3 := by
  induction ts with
  | nil =>
    intro e hg out e3 h
    simp only [processGo, Option.some_inj, Prod.mk.injEq] at h
    rw [← h.2]
    exact hg
  | cons c cs ih =>
    intro e hg out e3 h
    cases henc : encryptChar e c with
    | none =>
      simp only [processGo, henc] at h
      cases h
    | some p =>
      obtain ⟨d, e2⟩ := p
      have hg2 := encryptChar_good hg henc
      cases hrec : processGo e2 cs with
      | none =>
        simp only [processGo, henc, hrec] at h
        cases h
      | some q =>
        obtain ⟨ds, e4⟩ := q
        simp only [processGo, henc, hrec, Option.some_inj, Prod.mk.injEq] at h
        rw [← h.2]
        exact ih hg2 hrec

/-! ### The checked lookups agree with the plain ones on validated state -/

theorem charAtChecked_eq {s : List Char} {i : Int} (h0 : 0 ≤ i)
    (h1 : i.toNat < s.length) : charAtChecked s i = some (charAt s i) := by
  rw [charAtChecked, dif_pos ⟨h0, h1⟩, charAt_eq_get s i h0 h1]

theorem jsIndexOfChecked_eq {s : List Char} {c : Char} (h : c ∈ s) :
    jsIndexOfChecked s c = some (jsIndexOf s c) := by
  rw [jsIndexOfChecked, if_pos h, jsIndexOf_of_mem h]

theorem forwardChecked_eq {r : Rotor} (hw : GoodWiring r.wiring) {c : Char}
    (hc : c ∈ alphabet) : forwardChecked r c = some (r.forward c) := by
  rw [forwardChecked, jsIndexOfChecked_eq hc, Option.some_bind]
  have h0 := jsmod_nonneg (jsIndexOf alphabet c + r.position - r.ringSetting)
  have h1 := jsmod_lt (jsIndexOf alphabet c + r.position - r.ringSetting)
  rw [charAtChecked_eq h0 (by rw [hw.1]; omega)]
  rfl

theorem backwardChecked_eq {r : Rotor} (hw : GoodWiring r.wiring) {c : Char}
    (hc : c ∈ alphabet) : backwardChecked r c = some (r.backward c) := by
  have hcw : c ∈ r.wiring := hw.2.2.2 c hc
  rw [backwardChecked, jsIndexOfChecked_eq hcw, Option.some_bind]
  have h0 := jsmod_nonneg (jsIndexOf r.wiring c - r.position + r.ringSetting)
  have h1 := jsmod_lt (jsIndexOf r.wiring c - r.position + r.ringSetting)
  rw [charAtChecked_eq h0 (by rw [alphabet_length]; omega)]
  rfl

theorem reflectChecked_eq {c : Char} (hc : c ∈ alphabet) :
    reflectChecked c = some (charAt REFLECTOR (jsIndexOf alphabet c)) := by
  rw [reflectChecked, jsIndexOfChecked_eq hc, Option.some_bind]
  have h0 : (0 : Int) ≤ jsIndexOf alphabet c := jsIndexOf_nonneg hc
  have h1 : jsIndexOf alphabet c < 26 := by
    have := jsIndexOf_lt hc
    rw [alphabet_length] at this
    exact_mod_cast this
  rw [jsIndexOf_of_mem hc] at h0 h1 ⊢
  rw [charAtChecked_eq h0 (by have : REFLECTOR.length = 26 := rfl; omega)]

theorem encryptCharChecked_letter {e : Enigma} (hg : GoodMachine e) {c : Char}
    (hc : c ∈ alphabet) : encryptCharChecked e c = encryptChar e c := by
  obtain ⟨r0, r1, r2, hr⟩ := List.length_eq_three.1 hg.1
  obtain ⟨e2, hstep⟩ : ∃ e2, stepRotors e = some e2 := ⟨_, stepRotors_three hr⟩
  obtain ⟨hg2, hpp⟩ := stepRotors_good hg hstep
  obtain ⟨s0, s1, s2, hr2⟩ := List.length_eq_three.1 hg2.1
  have hW := hg2.2.1
  rw [hr2] at hW
  have hW0 : GoodWiring s0.wiring := hW s0 (by simp)
  have hW1 : GoodWiring s1.wiring := hW s1 (by simp)
  have hW2 : GoodWiring s2.wiring := hW s2 (by simp)
  have halpha : ∀ q ∈ e2.plugboardPairs, q.1 ∈ alphabet ∧ q.2 ∈ alphabet := hg2.2.2.2
  have hc1m : plugboardSwap c e2.plugboardPairs ∈ alphabet :=
    plugboardSwap_alpha _ halpha c hc
  have hx2m := forward_mem hW2 (plugboardSwap c e2.plugboardPairs)
  have hx1m := forward_mem hW1 (s2.forward (plugboardSwap c e2.plugboardPairs))
  have hx0m := forward_mem hW0 (s1.forward (s2.forward (plugboardSwap c e2.plugboardPairs)))
  simp only [encryptCharChecked, encryptChar, hc, if_true, hstep, hr2,
    List.foldr_cons, List.foldr_nil, List.foldl_cons, List.foldl_nil,
    Option.some_bind]
  rw [forwardChecked_eq hW2 hc1m, Option.some_bind,
    forwardChecked_eq hW1 hx2m, Option.some_bind,
    forwardChecked_eq hW0 hx1m, Option.some_bind,
    reflectChecked_eq hx0m, Option.some_bind]
  have hc3m := reflect_mem _ hx0m
  rw [backwardChecked_eq hW0 hc3m, Option.some_bind]
  have hy0m := backward_mem s0 (charAt REFLECTOR (jsIndexOf alphabet
    (s0.forward (s1.forward (s2.forward (plugboardSwap c e2.plugboardPairs))))))
  rw [backwardChecked_eq hW1 hy0m, Option.some_bind]
  have hy1m := backward_mem s1 (s0.backward (charAt REFLECTOR (jsIndexOf alphabet
    (s0.forward (s1.forward (s2.forward (plugboardSwap c e2.plugboardPairs)))))))
  rw [backwardChecked_eq hW2 hy1m]
  rfl

theorem processGoChecked_some {text : List Char} :
    ∀ {e : Enigma}, GoodMachine e →
      ∃ out e3, processGoChecked e text = some (out, e3) ∧
        processGo e text = some (out, e3) := by
  induction text with
  | nil => exact fun hg => ⟨[], _, rfl, rfl⟩
  | cons c cs ih =>
    intro e hg
    by_cases hc : c ∈ alphabet
    · obtain ⟨d, e2, henc, -, -, -, hg2, -⟩ := encryptChar_letter hg hc
      have hchk : encryptCharChecked e c = some (d, e2) := by
        rw [encryptCharChecked_letter hg hc, henc]
      obtain ⟨out, e3, h1, h2⟩ := ih hg2
      exact ⟨d :: out, e3, by simp [processGoChecked, hchk, h1],
        by simp [processGo, henc, h2]⟩
    · have henc : encryptChar e c = some (c, e) := by
        rw [encryptChar, if_neg hc]
      have hchk : encryptCharChecked e c = some (c, e) := by
        rw [encryptCharChecked, if_neg hc]
      obtain ⟨out, e3, h1, h2⟩ := ih hg
      exact ⟨c :: out, e3, by simp [processGoChecked, hchk, h1],
        by simp [processGo, henc, h2]⟩

theorem jsmod26_eq (n : Int) : jsmod n 26 = n % 26 :=
  jsmod_eq_emod n 26 (by norm_num)

/-! ## The claims -/

/-- Claim C1: encryption is an involution — for any valid configuration
(three catalog rotor identifiers, positions and ring settings in [0,25],
disjoint plugboard pairs) and any message of uppercase letters, a fresh
machine maps the message to a ciphertext, and a second fresh machine built
from the identical configuration maps that ciphertext back to exactly the
original message. -/
theorem C1_involution (ids ps rs : List Int) (pairs : List (Char × Char))
    (hv : ValidConfig ids ps rs pairs) (M : List Char)
    (hM : ∀ c ∈ M, c ∈ alphabet) :
    ∃ e ct e1 e2, mkEnigma ids ps rs pairs = some e ∧
      process e M = some (ct, e1) ∧ process e ct = some (M, e2) := by
  obtain ⟨e, hmk, hg⟩ := mkEnigma_valid hv
  obtain ⟨ct, e3, hp1, hp2, hct, -, -⟩ := processGo_letters hg hM
  refine ⟨e, ct, e3, e3, hmk, ?_, ?_⟩
  · rw [process, map_toUpper_id hM]
    exact hp1
  · rw [process, map_toUpper_id hct]
    exact hp2

theorem C1_involution_witness :
    (ValidConfig [0, 1, 2] [0, 0, 0] [0, 0, 0] [] ∧
      ∀ c ∈ ['H', 'E', 'L', 'L', 'O'], c ∈ alphabet) ∧
      ∃ e ct e1 e2, mkEnigma [0, 1, 2] [0, 0, 0] [0, 0, 0] [] = some e ∧
        process e ['H', 'E', 'L', 'L', 'O'] = some (ct, e1) ∧
        process e ct = some (['H', 'E', 'L', 'L', 'O'], e2) :=
  ⟨⟨by decide, by decide⟩,
    C1_involution [0, 1, 2] [0, 0, 0] [0, 0, 0] [] (by decide)
      ['H', 'E', 'L', 'L', 'O'] (by decide)⟩

/-- Claim C2 (counterexample): the configuration with rotor positions
`[30, 0, 0]` is invalid per the claim (30 is outside [0,25]), and the
configuration with pairs `AB AC` has the letter A in two pairs, yet machine
construction succeeds for both without raising any error, so construction
does not raise exactly on invalid configurations. -/
theorem C2_counterexample :
    ((mkEnigma [0, 1, 2] [30, 0, 0] [0, 0, 0] []).isSome = true ∧
      ¬ (30 : Int) ≤ 25) ∧
      (mkEnigma [0, 1, 2] [0, 0, 0] [0, 0, 0] [('A', 'B'), ('A', 'C')]).isSome
          = true ∧
        ¬ PairsDisjoint [('A', 'B'), ('A', 'C')] := by
  refine ⟨⟨by decide, by decide⟩, by decide, ?_⟩
  intro h
  rw [PairsDisjoint, List.pairwise_cons] at h
  exact (h.1 ('A', 'C') (List.mem_cons_self _ _)).1 rfl

/-- Claim C2 (amended): machine construction performs no validation of
positions, ring settings, plugboard pairs, or rotor count; it succeeds
exactly when every rotor identifier lies inside the catalog `[0, 3)` (an
out-of-catalog identifier makes the constructor throw — a generic runtime
error, not a dedicated `ConfigurationError`, which does not exist). -/
theorem C2_construction (ids ps rs : List Int) (pairs : List (Char × Char)) :
    (mkEnigma ids ps rs pairs).isSome = true ↔ ∀ id ∈ ids, 0 ≤ id ∧ id < 3 :=
  mkEnigma_isSome ids ps rs pairs

theorem C2_construction_witness :
    (mkEnigma [0, 1, 2] [77, -4, 0] [99, 0, 0] [('A', 'B'), ('A', 'C')]).isSome
        = true ↔
      ∀ id ∈ [(0 : Int), 1, 2], 0 ≤ id ∧ id < 3 :=
  C2_construction [0, 1, 2] [77, -4, 0] [99, 0, 0] [('A', 'B'), ('A', 'C')]

/-- Claim C3: the stepping rule — on every machine state (positions of left
and middle rotor in range) and alphabetic input, one `encryptChar` call
advances the right rotor by exactly 1 (mod 26), the middle rotor by
(1 if the middle rotor was at its notch) plus (1 if the right rotor was at
its notch), and the left rotor by 1 exactly when the middle rotor was at its
notch, with both notch tests taken on the pre-keystroke positions. -/
theorem C3_double_stepping {e : Enigma} {r0 r1 r2 : Rotor}
    (hr : e.rotors = [r0, r1, r2])
    (hp0 : 0 ≤ r0.position) (hp0b : r0.position ≤ 25)
    (hp1 : 0 ≤ r1.position) (hp1b : r1.position ≤ 25)
    {c : Char} (hc : c ∈ alphabet) :
    ∃ d e2, encryptChar e c = some (d, e2) ∧
      ∃ t0 t1 t2, e2.rotors = [t0, t1, t2] ∧
        t2.position = jsmod (r2.position + 1) 26 ∧
        t1.position = jsmod (r1.position + ((if r1.atNotch then 1 else 0)
          + (if r2.atNotch then 1 else 0))) 26 ∧
        t0.position = jsmod (r0.position + (if r1.atNotch then 1 else 0)) 26 := by
  have hstep := stepRotors_three hr
  cases henc : encryptChar e c with
  | none =>
    rw [encryptChar, if_pos hc, hstep] at henc
    simp at henc
  | some p =>
    obtain ⟨d, e2⟩ := p
    rw [encryptChar, if_pos hc, hstep] at henc
    simp only [Option.some_inj, Prod.mk.injEq] at henc
    refine ⟨d, e2, rfl, _, _, _, by rw [← henc.2], ?_, ?_, ?_⟩
    · rfl
    · cases h1 : r1.atNotch <;> cases h2 : r2.atNotch <;>
        simp [h1, h2, Rotor.step, jsmod26_eq] <;> omega
    · cases h1 : r1.atNotch <;> simp [h1, Rotor.step, jsmod26_eq]
      omega

theorem C3_double_stepping_witness :
    ∃ d e2, encryptChar sampleDouble 'A' = some (d, e2) ∧
      ∃ t0 t1 t2, e2.rotors = [t0, t1, t2] ∧
        t2.position = jsmod (rotorIII0.position + 1) 26 ∧
        t1.position = jsmod (rotorII4.position
          + ((if rotorII4.atNotch then 1 else 0)
            + (if rotorIII0.atNotch then 1 else 0))) 26 ∧
        t0.position = jsmod (rotorI0.position
          + (if rotorII4.atNotch then 1 else 0)) 26 :=
  C3_double_stepping rfl (by decide) (by decide) (by decide) (by decide)
    (show 'A' ∈ alphabet by decide)

/-- Claim C4: for every catalog rotor, position and ring setting in [0,25],
and uppercase letter x, `backward(forward(x)) = x`. -/
theorem C4_roundtrip :
    ∀ spec ∈ ROTORS, ∀ pos ring : Int,
      0 ≤ pos → pos ≤ 25 → 0 ≤ ring → ring ≤ 25 →
      ∀ c ∈ alphabet,
        (Rotor.mk spec.wiring spec.notch ring pos).backward
          ((Rotor.mk spec.wiring spec.notch ring pos).forward c) = c := by
  intro spec hspec pos ring _ _ _ _ c hc
  exact backward_forward (good_rotors spec hspec) hc

theorem C4_roundtrip_witness :
    (Rotor.mk (RotorSpec.mk "EKMFLGDQVZNTOWYHXUSPAIBRCJ".toList 'Q').wiring
        (RotorSpec.mk "EKMFLGDQVZNTOWYHXUSPAIBRCJ".toList 'Q').notch 7 3).backward
      ((Rotor.mk (RotorSpec.mk "EKMFLGDQVZNTOWYHXUSPAIBRCJ".toList 'Q').wiring
        (RotorSpec.mk "EKMFLGDQVZNTOWYHXUSPAIBRCJ".toList 'Q').notch 7 3).forward 'K')
      = 'K' :=
  C4_roundtrip (RotorSpec.mk "EKMFLGDQVZNTOWYHXUSPAIBRCJ".toList 'Q') (by decide)
    3 7 (by decide) (by decide) (by decide) (by decide) 'K' (by decide)

/-- Claim C5: the plugboard is a partial involution — under disjoint pairs,
swapping twice is the identity on every alphabet symbol; a symbol that is the
first or second member of a pair is sent to its partner, and a symbol in no
pair is returned unchanged. -/
theorem C5_plugboard (pairs : List (Char × Char)) (hd : PairsDisjoint pairs)
    (c : Char) (_hc : c ∈ alphabet) :
    plugboardSwap (plugboardSwap c pairs) pairs = c ∧
      (∀ q ∈ pairs, (c = q.1 → plugboardSwap c pairs = q.2) ∧
        (c = q.2 → plugboardSwap c pairs = q.1)) ∧
      ((∀ q ∈ pairs, c ≠ q.1 ∧ c ≠ q.2) → plugboardSwap c pairs = c) := by
  refine ⟨plugboardSwap_invol pairs hd c, ?_,
    fun h => plugboardSwap_not_mem c pairs h⟩
  intro q hq
  obtain ⟨a, b⟩ := q
  constructor
  · intro h1
    rw [h1]
    exact (plugboardSwap_pair pairs hd hq).1
  · intro h2
    rw [h2]
    exact (plugboardSwap_pair pairs hd hq).2

theorem C5_plugboard_witness :
    (plugboardSwap (plugboardSwap 'B' [('A', 'B'), ('C', 'D')])
        [('A', 'B'), ('C', 'D')] = 'B' ∧
      (∀ q ∈ [('A', 'B'), ('C', 'D')],
        ('B' = q.1 → plugboardSwap 'B' [('A', 'B'), ('C', 'D')] = q.2) ∧
        ('B' = q.2 → plugboardSwap 'B' [('A', 'B'), ('C', 'D')] = q.1)) ∧
      ((∀ q ∈ [('A', 'B'), ('C', 'D')], 'B' ≠ q.1 ∧ 'B' ≠ q.2) →
        plugboardSwap 'B' [('A', 'B'), ('C', 'D')] = 'B')) :=
  C5_plugboard [('A', 'B'), ('C', 'D')] (by decide) 'B' (by decide)

/-- Claim C6: the reflector is a fixed-point-free involutive permutation of
the alphabet — `REFLECTOR[alphabet.indexOf(x)]` differs from x and applying
it twice returns x, for all 26 letters. -/
theorem C6_reflector :
    ∀ c ∈ alphabet,
      charAt REFLECTOR (jsIndexOf alphabet c) ≠ c ∧
        charAt REFLECTOR (jsIndexOf alphabet
          (charAt REFLECTOR (jsIndexOf alphabet c))) = c :=
  fun c hc => ⟨reflect_no_fix c hc, reflect_invol c hc⟩

theorem C6_reflector_witness :
    charAt REFLECTOR (jsIndexOf alphabet 'A') ≠ 'A' ∧
      charAt REFLECTOR (jsIndexOf alphabet
        (charAt REFLECTOR (jsIndexOf alphabet 'A'))) = 'A' :=
  C6_reflector 'A' (by decide)

theorem encryptChar_some_of_three {e : Enigma} {r0 r1 r2 : Rotor}
    (hr : e.rotors = [r0, r1, r2]) {c : Char} (hc : c ∈ alphabet) :
    ∃ d t0 t1 t2, encryptChar e c = some (d, { e with rotors := [t0, t1, t2] }) := by
  have hstep := stepRotors_three hr
  cases henc : encryptChar e c with
  | none =>
    rw [encryptChar, if_pos hc, hstep] at henc
    simp at henc
  | some p =>
    obtain ⟨d, e2⟩ := p
    rw [encryptChar, if_pos hc, hstep] at henc
    simp only [Option.some_inj, Prod.mk.injEq] at henc
    exact ⟨d, _, _, _, by rw [← henc.2]⟩

/-- Claim C7: non-alphabetic characters are transparent — `encryptChar`
returns them unchanged with the machine state untouched, and hence processing
"A1B" leaves the '1' verbatim in place and ends in exactly the same machine
state as processing "AB". -/
theorem C7_transparency :
    (∀ (e : Enigma) (c : Char), c ∉ alphabet → encryptChar e c = some (c, e)) ∧
      ∀ (e : Enigma) (r0 r1 r2 : Rotor), e.rotors = [r0, r1, r2] →
        ∃ d1 d2 efin, process e ['A', '1', 'B'] = some ([d1, '1', d2], efin) ∧
          process e ['A', 'B'] = some ([d1, d2], efin) := by
  constructor
  · intro e c hc
    rw [encryptChar, if_neg hc]
  · intro e r0 r1 r2 hr
    obtain ⟨d1, t0, t1, t2, hA⟩ :=
      encryptChar_some_of_three hr (show 'A' ∈ alphabet by decide)
    have hr2 : ({ e with rotors := [t0, t1, t2] } : Enigma).rotors
        = [t0, t1, t2] := rfl
    have h1 : encryptChar { e with rotors := [t0, t1, t2] } '1'
        = some ('1', { e with rotors := [t0, t1, t2] }) := by
      rw [encryptChar, if_neg (by decide)]
    obtain ⟨d2, u0, u1, u2, hB⟩ :=
      encryptChar_some_of_three hr2 (show 'B' ∈ alphabet by decide)
    have hB' : encryptChar { e with rotors := [t0, t1, t2] } 'B'
        = some (d2, { e with rotors := [u0, u1, u2] }) := hB
    refine ⟨d1, d2, { e with rotors := [u0, u1, u2] }, ?_, ?_⟩
    · have hmap : (['A', '1', 'B'] : List Char).map Char.toUpper
          = ['A', '1', 'B'] := by decide
      rw [process, hmap]
      simp [processGo, hA, h1, hB']
    · have hmap : (['A', 'B'] : List Char).map Char.toUpper = ['A', 'B'] := by
        decide
      rw [process, hmap]
      simp [processGo, hA, hB']

theorem C7_transparency_witness :
    encryptChar sampleMachine '1' = some ('1', sampleMachine) ∧
      ∃ d1 d2 efin,
        process sampleMachine ['A', '1', 'B'] = some ([d1, '1', d2], efin) ∧
        process sampleMachine ['A', 'B'] = some ([d1, d2], efin) :=
  ⟨C7_transparency.1 sampleMachine '1' (by decide),
    C7_transparency.2 sampleMachine rotorI0 rotorII0 rotorIII0 rfl⟩

/-- Claim C8: processing is total over validated state — from any valid
configuration, `process` succeeds on every input string and so does its
fully checked variant, in which every alphabet/wiring/reflector index lookup
must be in bounds and every index search must find its character; both
return the same output and final state. -/
theorem C8_total (ids ps rs : List Int) (pairs : List (Char × Char))
    (hv : ValidConfig ids ps rs pairs) (text : List Char) :
    ∃ e out efin, mkEnigma ids ps rs pairs = some e ∧
      processChecked e text = some (out, efin) ∧
      process e text = some (out, efin) := by
  obtain ⟨e, hmk, hg⟩ := mkEnigma_valid hv
  obtain ⟨out, efin, h1, h2⟩ := processGoChecked_some hg
  exact ⟨e, out, efin, hmk, h1, h2⟩

theorem C8_total_witness :
    ValidConfig [0, 1, 2] [0, 0, 0] [0, 0, 0] [('A', 'B')] ∧
      ∃ e out efin,
        mkEnigma [0, 1, 2] [0, 0, 0] [0, 0, 0] [('A', 'B')] = some e ∧
        processChecked e ['A', 'b', '1'] = some (out, efin) ∧
        process e ['A', 'b', '1'] = some (out, efin) :=
  ⟨by decide,
    C8_total [0, 1, 2] [0, 0, 0] [0, 0, 0] [('A', 'B')] (by decide)
      ['A', 'b', '1']⟩

theorem lower_not_alpha : ∀ c ∈ lowercaseAlphabet, c ∉ alphabet := by
  decide

/-- Claim C9: `encryptChar` is case-sensitive — a lowercase letter is not in
the uppercase-only alphabet, so it passes through unchanged with no rotor
movement; lowercase letters are enciphered only because `process` uppercases
its whole input before applying `encryptChar`. -/
theorem C9_case_sensitive :
    (∀ (e : Enigma), ∀ c ∈ lowercaseAlphabet, encryptChar e c = some (c, e)) ∧
      ∀ (e : Enigma) (text : List Char),
        process e text = processGo e (text.map Char.toUpper) := by
  constructor
  · intro e c hc
    rw [encryptChar, if_neg (lower_not_alpha c hc)]
  · intro e text
    rfl

theorem C9_case_sensitive_witness :
    encryptChar sampleMachine 'a' = some ('a', sampleMachine) ∧
      process sampleMachine ['a', '!']
        = processGo sampleMachine (['a', '!'].map Char.toUpper) :=
  ⟨C9_case_sensitive.1 sampleMachine 'a' (by decide),
    C9_case_sensitive.2 sampleMachine ['a', '!']⟩

/-- Claim C10: no letter ever encrypts to itself — for every machine
constructed from a valid configuration and every state reached from it by
processing any text, `encryptChar` on an uppercase letter never returns that
letter. -/
theorem C10_no_self_encryption (ids ps rs : List Int)
    (pairs : List (Char × Char)) (hv : ValidConfig ids ps rs pairs)
    (e0 : Enigma) (h0 : mkEnigma ids ps rs pairs = some e0) (ts : List Char)
    (out : List Char) (e : Enigma) (hp : process e0 ts = some (out, e))
    (c : Char) (hc : c ∈ alphabet) (d : Char) (efin : Enigma)
    (henc : encryptChar e c = some (d, efin)) : d ≠ c := by
  obtain ⟨e0', hmk, hg0⟩ := mkEnigma_valid hv
  rw [h0] at hmk
  obtain rfl : e0 = e0' := Option.some_inj.1 hmk
  have hg : GoodMachine e := processGo_good hg0 hp
  obtain ⟨d', e2, henc', -, -, hne, -, -⟩ := encryptChar_letter hg hc
  rw [henc] at henc'
  simp only [Option.some_inj, Prod.mk.injEq] at henc'
  rw [henc'.1]
  exact hne

theorem C10_no_self_encryption_witness :
    (ValidConfig [0, 1, 2] [0, 0, 0] [0, 0, 0] [] ∧
      mkEnigma [0, 1, 2] [0, 0, 0] [0, 0, 0] [] = some sampleMachine ∧
      process sampleMachine [] = some ([], sampleMachine) ∧
      encryptChar sampleMachine 'A' = some ('D', sampleStepped)) ∧
      ('D' : Char) ≠ 'A' :=
  ⟨⟨by decide, by decide, rfl, by decide⟩,
    C10_no_self_encryption [0, 1, 2] [0, 0, 0] [0, 0, 0] [] (by decide)
      sampleMachine (by decide) [] [] sampleMachine rfl 'A' (by decide) 'D'
      sampleStepped (by decide)⟩
